import Mathlib

/-!
Shallow embedding of the memory-mapped register cell of `src/emu/src/bus/regs.rs`
(`Reg<'a, O, U>`), together with the numeric/endian helpers it relies on.

Machine integers `U` (one of u8/u16/u32/u64) are embedded as `Nat` together
with explicit truncations `% 2 ^ (8 * w)` where the Rust code truncates or
wraps; `w` is the byte width `U::SIZE`.  The backing store `raw : [u8; 8]`
is embedded as a list of byte values.  The write observer callback
`wcb : Option<Box<Fn(U, U)>>` is side-effecting, so `Reg.write` returns the
list of `(old, new)` invocations it performs; the read transform
`rcb : Option<Box<Fn(U) -> U>>` is embedded as an optional `Nat → Nat`
function whose result is truncated to `U`'s width at the call site, exactly
where the Rust value of type `U` is converted `.into()` a `u64`.
-/

namespace Regs

/-- Byte order of a register (the `O : ByteOrderCombiner` type parameter). -/
inductive ByteOrder where
  | le
  | be
deriving DecidableEq

/-- Modelled from the spec: `memint.rs` (the `MemInt`/`ByteOrderCombiner`
abstraction) is not among the shown sources.  Per §4.1, given full width `w`
bytes, access width `s` bytes and byte offset `off`, `subint_mask` returns
`(mask, shift)` where for little-endian `shift = off * 8`, for big-endian
`shift = (w - s - off) * 8`, and `mask` is the `w`-wide bitmask covering
exactly the `s`-wide window at `shift`. -/
def subint_mask (o : ByteOrder) (w s off : Nat) : Nat × Nat :=
  let shift := match o with
    | .le => off * 8
    | .be => (w - s - off) * 8
  (((2 ^ (8 * s) - 1) <<< shift) % 2 ^ (8 * w), shift)

/-- Modelled from the spec: §4.1 byte deserialization, little-endian first
(byte `i` contributes at bit `8 * i`). -/
def bytesLE : List Nat → Nat
  | [] => 0
  | b :: bs => b + 256 * bytesLE bs

/-- Modelled from the spec: §4.1 serialization of a value into `n` bytes,
little-endian first (high bits beyond the `n` bytes are dropped). -/
def toBytesLE : Nat → Nat → List Nat
  | 0, _ => []
  | n + 1, v => v % 256 :: toBytesLE n (v / 256)

/-- Modelled from the spec: deserialization of the first `w` bytes of a
buffer under byte order `o` (§4.1). -/
def endianRead (o : ByteOrder) (w : Nat) (raw : List Nat) : Nat :=
  match o with
  | .le => bytesLE (raw.take w)
  | .be => bytesLE (raw.take w).reverse

/-- Modelled from the spec: the `w` bytes representing value `v` under byte
order `o` (§4.1). -/
def endianBytes (o : ByteOrder) (w v : Nat) : List Nat :=
  match o with
  | .le => toBytesLE w v
  | .be => (toBytesLE w v).reverse

/-- Modelled from the spec: serialization of `v` into the first `w` bytes of
a buffer under byte order `o`, leaving later bytes untouched (§4.1). -/
def endianWrite (o : ByteOrder) (w : Nat) (raw : List Nat) (v : Nat) : List Nat :=
  endianBytes o w v ++ raw.drop w

/-- The all-ones value of an `s`-byte access width, as returned by the
unmapped-read stub (`unmapped_area_r` in `bus.rs`, modelled from the spec
§4.4: "returns all bits set (all-ones), regardless of requested width"). -/
def allOnes (s : Nat) : Nat := 2 ^ (8 * s) - 1

/-- Bitwise complement within a `w`-byte machine integer (the Rust `!` on
`U`). -/
def natCompl (w n : Nat) : Nat := (2 ^ (8 * w) - 1) ^^^ n

/-- Modelled from the spec: the direct-memory read handler
(`HwIoR::Mem` / `MemIoR` in `bus.rs`), which per §4.3 reads the `s` bytes of
raw storage at the (already address-masked) byte offset `off`, composed
under byte order `o`. -/
def memIoRead (o : ByteOrder) (s : Nat) (raw : List Nat) (off : Nat) : Nat :=
  match o with
  | .le => bytesLE ((raw.drop off).take s)
  | .be => bytesLE ((raw.drop off).take s).reverse

/-- Modelled from the spec: the direct-memory write handler
(`HwIoW::Mem` / `MemIoW` in `bus.rs`), which per §4.2 writes the `s`-wide
value directly into the corresponding byte range of raw storage. -/
def memIoWrite (o : ByteOrder) (s : Nat) (raw : List Nat) (off v : Nat) : List Nat :=
  raw.take off ++ endianBytes o s v ++ raw.drop (off + s)

/-- The register cell `Reg<'a, O, U>` of `regs.rs`.  `size` is `U::SIZE` in
bytes; `readAccess`/`writeAccess` are the two `RegFlags` bits; `wcb` records
whether a write observer callback is attached (its invocations are reported
by `Reg.write`); `rcb` is the optional pure read transform. -/
structure Reg where
  order : ByteOrder
  size : Nat
  raw : List Nat
  romask : Nat
  readAccess : Bool
  writeAccess : Bool
  wcb : Bool
  rcb : Option (Nat → Nat)

/-- `Reg::get`: read the raw stored value, bypassing any callback. -/
def Reg.get (r : Reg) : Nat :=
  endianRead r.order r.size r.raw

/-- `Reg::set`: overwrite the raw stored value, bypassing mask and
callbacks. -/
def Reg.set (r : Reg) (v : Nat) : Reg :=
  { r with raw := endianWrite r.order r.size r.raw v }

/-- `Reg::read::<S>` composed with `Reg::hw_io_r::<S>` (regs.rs lines
63–80 and 108–110): the value an `s`-byte-wide bus read at address `addr`
delivers, together with the register state after the access (the read path
never calls `set`, so the state comes back as built by the handler). -/
def Reg.read (r : Reg) (s addr : Nat) : Nat × Reg :=
  if r.readAccess = false then
    (allOnes s, r)
  else
    match r.rcb with
    | some f =>
      let off := addr &&& (r.size - 1)
      let shift := (subint_mask r.order r.size s off).2
      let val := f r.get % 2 ^ (8 * r.size)
      ((val >>> shift) % 2 ^ (8 * s), r)
    | none => (memIoRead r.order s r.raw (addr &&& (r.size - 1)), r)

/-- The value stored by the general (`HwIoW::Func`) write path of
`Reg::hw_io_w::<S>` (regs.rs lines 95–99), after the closure has masked the
address down to the byte offset `off`: sub-window placement followed by the
mask-and-merge against the old value and the read-only mask. -/
def Reg.writeFuncVal (r : Reg) (s off v : Nat) : Nat :=
  let ms := subint_mask r.order r.size s off
  let val := (v % 2 ^ (8 * r.size)) <<< ms.2 % 2 ^ (8 * r.size)
  let mask := natCompl r.size ms.1 ||| r.romask
  (val &&& natCompl r.size mask) ||| (r.get &&& mask)

/-- `Reg::write::<S>` composed with `Reg::hw_io_w::<S>` (regs.rs lines
82–106 and 112–114): the register state after an `s`-byte-wide bus write of
`v` at address `addr`, together with the list of `(old, new)` write-observer
invocations performed by the access. -/
def Reg.write (r : Reg) (s addr v : Nat) : Reg × List (Nat × Nat) :=
  if r.writeAccess = false then
    (r, [])
  else if r.romask = 0 ∧ r.wcb = false then
    ({ r with raw := memIoWrite r.order s r.raw (addr &&& (r.size - 1)) v }, [])
  else
    let old := r.get
    let newv := r.writeFuncVal s (addr &&& (r.size - 1)) v
    (r.set newv, if r.wcb then [(old, newv)] else [])

/-- Well-formedness of a register cell as constructed in `regs.rs`: the
backing store is the 8-byte array `[u8; 8]`, the width is one of the
`MemInt` widths and the read-only mask is a `U` value. -/
def Reg.Wf (r : Reg) : Prop :=
  r.raw.length = 8 ∧ (∀ b ∈ r.raw, b < 256) ∧
    r.size ∈ ([1, 2, 4, 8] : List Nat) ∧ r.romask < 2 ^ (8 * r.size)

theorem toBytesLE_length (n : Nat) : ∀ v, (toBytesLE n v).length = n := by
  induction n with
  | zero => intro v; rfl
  | succ n ih => intro v; simp [toBytesLE, ih]

theorem toBytesLE_lt (n : Nat) : ∀ v, ∀ b ∈ toBytesLE n v, b < 256 := by
  induction n with
  | zero => intro v b hb; simp [toBytesLE] at hb
  | succ n ih =>
    intro v b hb
    simp only [toBytesLE, List.mem_cons] at hb
    rcases hb with h | h
    · subst h; exact Nat.mod_lt _ (by omega)
    · exact ih _ _ h

theorem pow_eight_mul_succ (n : Nat) : 2 ^ (8 * (n + 1)) = 256 * 2 ^ (8 * n) := by
  have h : 8 * (n + 1) = 8 + 8 * n := by ring
  rw [h, Nat.pow_add]

theorem bytesLE_toBytesLE (n : Nat) : ∀ v, bytesLE (toBytesLE n v) = v % 2 ^ (8 * n) := by
  induction n with
  | zero => intro v; simp [toBytesLE, bytesLE, Nat.mod_one]
  | succ n ih =>
    intro v
    rw [pow_eight_mul_succ, Nat.mod_mul]
    simp [toBytesLE, bytesLE, ih]

theorem bytesLE_lt (xs : List Nat) (h : ∀ b ∈ xs, b < 256) :
    bytesLE xs < 2 ^ (8 * xs.length) := by
  induction xs with
  | nil => simp [bytesLE]
  | cons b bs ih =>
    have hb : b < 256 := h b (List.mem_cons_self ..)
    have hbs : bytesLE bs < 2 ^ (8 * bs.length) :=
      ih fun x hx => h x (List.mem_cons_of_mem _ hx)
    simp only [bytesLE, List.length_cons, pow_eight_mul_succ]
    omega

theorem getD_toBytesLE (n : Nat) : ∀ v j, (toBytesLE n v).getD j 0 =
    if j < n then v / 2 ^ (8 * j) % 256 else 0 := by
  induction n with
  | zero => intro v j; simp [toBytesLE]
  | succ n ih =>
    intro v j
    match j with
    | 0 => simp [toBytesLE]
    | j + 1 =>
      simp only [toBytesLE, List.getD_cons_succ, ih]
      have h : v / 256 / 2 ^ (8 * j) = v / 2 ^ (8 * (j + 1)) := by
        rw [Nat.div_div_eq_div_mul, ← pow_eight_mul_succ]
      rw [h]
      simp only [Nat.succ_lt_succ_iff]

theorem testBit_bytesLE (xs : List Nat) (h : ∀ b ∈ xs, b < 256) (i : Nat) :
    (bytesLE xs).testBit i = (xs.getD (i / 8) 0).testBit (i % 8) := by
  induction xs generalizing i with
  | nil => simp [bytesLE]
  | cons b bs ih =>
    have hb : b < 256 := h b (List.mem_cons_self ..)
    have hbs : ∀ x ∈ bs, x < 256 := fun x hx => h x (List.mem_cons_of_mem _ hx)
    have hrw : bytesLE (b :: bs) = 2 ^ 8 * bytesLE bs + b := by
      simp [bytesLE]; ring
    rw [hrw, Nat.testBit_mul_pow_two_add _ (by omega)]
    by_cases hi : i < 8
    · have h0 : i / 8 = 0 := by omega
      have h1 : i % 8 = i := by omega
      simp [hi, h0, h1]
    · have h0 : i / 8 = (i - 8) / 8 + 1 := by omega
      have h1 : i % 8 = (i - 8) % 8 := by omega
      rw [if_neg hi, ih hbs, h0, h1, List.getD_cons_succ]

theorem getD_take (xs : List Nat) : ∀ k i, (xs.take k).getD i 0 =
    if i < k then xs.getD i 0 else 0 := by
  induction xs with
  | nil => intro k i; simp
  | cons b bs ih =>
    intro k i
    match k, i with
    | 0, i => simp
    | k + 1, 0 => simp
    | k + 1, i + 1 =>
      rw [List.take_succ_cons, List.getD_cons_succ, ih k i, List.getD_cons_succ]
      by_cases h : i < k
      · rw [if_pos h, if_pos (by omega)]
      · rw [if_neg h, if_neg (by omega)]

theorem getD_drop (xs : List Nat) : ∀ k i, (xs.drop k).getD i 0 = xs.getD (k + i) 0 := by
  induction xs with
  | nil => intro k i; simp
  | cons b bs ih =>
    intro k i
    match k with
    | 0 => simp
    | k + 1 =>
      have h : k + 1 + i = (k + i) + 1 := by omega
      simp [List.drop_succ_cons, ih, h]

theorem getD_append (xs ys : List Nat) : ∀ i, (xs ++ ys).getD i 0 =
    if i < xs.length then xs.getD i 0 else ys.getD (i - xs.length) 0 := by
  induction xs with
  | nil => intro i; simp
  | cons b bs ih =>
    intro i
    match i with
    | 0 => simp
    | i + 1 =>
      rw [List.cons_append, List.getD_cons_succ, ih i, List.length_cons, List.getD_cons_succ]
      by_cases h : i < bs.length
      · rw [if_pos h, if_pos (by omega)]
      · rw [if_neg h, if_neg (by omega)]
        congr 1
        omega

theorem getD_lt_length (xs : List Nat) : ∀ i, xs.length ≤ i → xs.getD i 0 = 0 := by
  induction xs with
  | nil => intro i _; simp
  | cons b bs ih =>
    intro i hi
    match i with
    | 0 => simp at hi
    | i + 1 =>
      simp only [List.length_cons] at hi
      rw [List.getD_cons_succ, ih i (by omega)]

theorem getD_reverse (xs : List Nat) (i : Nat) :
    xs.reverse.getD i 0 = if i < xs.length then xs.getD (xs.length - 1 - i) 0 else 0 := by
  by_cases hi : i < xs.length
  · have h1 : i < xs.reverse.length := by simpa using hi
    have h2 : xs.length - 1 - i < xs.length := by omega
    rw [if_pos hi]
    have e1 : xs.reverse.getD i 0 = xs.reverse[i] := by
      simp [List.getD_eq_getElem?_getD, List.getElem?_eq_getElem h1]
    have e2 : xs.getD (xs.length - 1 - i) 0 = xs[xs.length - 1 - i] := by
      simp [List.getD_eq_getElem?_getD, List.getElem?_eq_getElem h2]
    rw [e1, e2, List.getElem_reverse]
  · rw [if_neg hi]
    exact getD_lt_length _ _ (by simpa using Nat.le_of_not_lt hi)

theorem lor_lt_two_pow {a b n : Nat} (ha : a < 2 ^ n) (hb : b < 2 ^ n) :
    a ||| b < 2 ^ n := by
  apply Nat.lt_pow_two_of_testBit
  intro i hi
  have hpow : (2 : Nat) ^ n ≤ 2 ^ i := Nat.pow_le_pow_of_le_right (by omega) hi
  rw [Nat.testBit_or,
    Nat.testBit_lt_two_pow (Nat.lt_of_lt_of_le ha hpow),
    Nat.testBit_lt_two_pow (Nat.lt_of_lt_of_le hb hpow)]
  rfl

theorem testBit_natCompl (w n i : Nat) :
    (natCompl w n).testBit i = (decide (i < 8 * w) ^^ n.testBit i) := by
  simp [natCompl]

theorem natCompl_lt (w : Nat) {n : Nat} (h : n < 2 ^ (8 * w)) :
    natCompl w n < 2 ^ (8 * w) :=
  Nat.xor_lt_two_pow (by have := Nat.two_pow_pos (8 * w); omega) h

theorem natCompl_natCompl (w n : Nat) : natCompl w (natCompl w n) = n := by
  simp [natCompl, ← Nat.xor_assoc]

theorem subint_mask_fst_lt (o : ByteOrder) (w s off : Nat) :
    (subint_mask o w s off).1 < 2 ^ (8 * w) := by
  cases o <;> exact Nat.mod_lt _ (Nat.two_pow_pos _)

theorem testBit_subint_mask_fst (o : ByteOrder) (w s off i : Nat) :
    ((subint_mask o w s off).1).testBit i =
      (decide (i < 8 * w) && (decide ((subint_mask o w s off).2 ≤ i) &&
        decide (i - (subint_mask o w s off).2 < 8 * s))) := by
  cases o <;> simp [subint_mask]

theorem testBit_byte (v a t : Nat) :
    (v / 2 ^ a % 256).testBit t = (decide (t < 8) && v.testBit (a + t)) := by
  have h256 : (256 : Nat) = 2 ^ 8 := by norm_num
  rw [h256, ← Nat.shiftRight_eq_div_pow, Nat.testBit_mod_two_pow, Nat.testBit_shiftRight]

theorem bytes_lt_of_take {xs : List Nat} {k : Nat} (h : ∀ b ∈ xs, b < 256) :
    ∀ b ∈ xs.take k, b < 256 :=
  fun b hb => h b (List.mem_of_mem_take hb)

theorem bytes_lt_of_drop {xs : List Nat} {k : Nat} (h : ∀ b ∈ xs, b < 256) :
    ∀ b ∈ xs.drop k, b < 256 :=
  fun b hb => h b (List.mem_of_mem_drop hb)

theorem bytes_lt_of_reverse {xs : List Nat} (h : ∀ b ∈ xs, b < 256) :
    ∀ b ∈ xs.reverse, b < 256 :=
  fun b hb => h b (List.mem_reverse.mp hb)

theorem length_endianBytes (o : ByteOrder) (w v : Nat) :
    (endianBytes o w v).length = w := by
  cases o <;> simp [endianBytes, toBytesLE_length]

theorem testBit_endianRead_le (w : Nat) (raw : List Nat)
    (h : ∀ b ∈ raw, b < 256) (i : Nat) :
    (endianRead .le w raw).testBit i =
      (decide (i < 8 * w) && (raw.getD (i / 8) 0).testBit (i % 8)) := by
  simp only [endianRead]
  rw [testBit_bytesLE _ (bytes_lt_of_take h), getD_take]
  by_cases hi : i < 8 * w
  · rw [if_pos (by omega), decide_eq_true hi, Bool.true_and]
  · rw [if_neg (by omega), decide_eq_false hi, Bool.false_and, Nat.zero_testBit]

theorem testBit_endianRead_be (w : Nat) (raw : List Nat) (hlen : w ≤ raw.length)
    (h : ∀ b ∈ raw, b < 256) (i : Nat) :
    (endianRead .be w raw).testBit i =
      (decide (i < 8 * w) && (raw.getD (w - 1 - i / 8) 0).testBit (i % 8)) := by
  simp only [endianRead]
  rw [testBit_bytesLE _ (bytes_lt_of_reverse (bytes_lt_of_take h)), getD_reverse]
  have hlt : (raw.take w).length = w := by
    rw [List.length_take]; omega
  rw [hlt, getD_take]
  by_cases hi : i < 8 * w
  · have hw : 0 < w := by omega
    rw [if_pos (by omega), if_pos (by omega), decide_eq_true hi, Bool.true_and]
  · rw [if_neg (by omega), decide_eq_false hi, Bool.false_and, Nat.zero_testBit]

theorem testBit_memIoRead_le (s : Nat) (raw : List Nat) (off : Nat)
    (h : ∀ b ∈ raw, b < 256) (i : Nat) :
    (memIoRead .le s raw off).testBit i =
      (decide (i < 8 * s) && (raw.getD (off + i / 8) 0).testBit (i % 8)) := by
  simp only [memIoRead]
  rw [testBit_bytesLE _ (bytes_lt_of_take (bytes_lt_of_drop h)), getD_take, getD_drop]
  by_cases hi : i < 8 * s
  · rw [if_pos (by omega), decide_eq_true hi, Bool.true_and]
  · rw [if_neg (by omega), decide_eq_false hi, Bool.false_and, Nat.zero_testBit]

theorem testBit_memIoRead_be (s : Nat) (raw : List Nat) (off : Nat)
    (h : ∀ b ∈ raw, b < 256) (hoff : off + s ≤ raw.length) (i : Nat) :
    (memIoRead .be s raw off).testBit i =
      (decide (i < 8 * s) && (raw.getD (off + (s - 1 - i / 8)) 0).testBit (i % 8)) := by
  simp only [memIoRead]
  rw [testBit_bytesLE _ (bytes_lt_of_reverse (bytes_lt_of_take (bytes_lt_of_drop h))),
    getD_reverse]
  have hlt : ((raw.drop off).take s).length = s := by
    rw [List.length_take, List.length_drop]; omega
  rw [hlt, getD_take, getD_drop]
  by_cases hi : i < 8 * s
  · have hs : 0 < s := by omega
    rw [if_pos (by omega), if_pos (by omega), decide_eq_true hi, Bool.true_and]
  · rw [if_neg (by omega), decide_eq_false hi, Bool.false_and, Nat.zero_testBit]

theorem getD_memIoWrite (o : ByteOrder) (s : Nat) (raw : List Nat) (off v j : Nat)
    (hoff : off ≤ raw.length) :
    (memIoWrite o s raw off v).getD j 0 =
      if j < off then raw.getD j 0
      else if j < off + s then (endianBytes o s v).getD (j - off) 0
      else raw.getD j 0 := by
  simp only [memIoWrite]
  rw [List.append_assoc, getD_append, getD_append, getD_take]
  have hlen : (raw.take off).length = off := by
    rw [List.length_take]; omega
  rw [hlen, length_endianBytes, getD_drop]
  by_cases h1 : j < off
  · rw [if_pos h1, if_pos h1, if_pos h1]
  · rw [if_neg h1, if_neg h1]
    by_cases h2 : j < off + s
    · rw [if_pos (by omega), if_pos (by omega)]
    · rw [if_neg (by omega), if_neg (by omega)]
      congr 1
      omega

theorem get_set (r : Reg) (v : Nat) : (r.set v).get = v % 2 ^ (8 * r.size) := by
  show endianRead r.order r.size (endianWrite r.order r.size r.raw v) = _
  cases r.order
  · simp only [endianRead, endianWrite, endianBytes]
    rw [List.take_left' (toBytesLE_length _ _), bytesLE_toBytesLE]
  · simp only [endianRead, endianWrite, endianBytes]
    rw [List.take_left' (by rw [List.length_reverse, toBytesLE_length]),
      List.reverse_reverse, bytesLE_toBytesLE]

theorem get_lt (r : Reg) (h : ∀ b ∈ r.raw, b < 256) : r.get < 2 ^ (8 * r.size) := by
  show endianRead r.order r.size r.raw < _
  have hle : 2 ^ (8 * (r.raw.take r.size).length) ≤ 2 ^ (8 * r.size) := by
    apply Nat.pow_le_pow_of_le_right (by omega)
    rw [List.length_take]
    omega
  cases r.order
  · exact Nat.lt_of_lt_of_le (bytesLE_lt _ (bytes_lt_of_take h)) hle
  · refine Nat.lt_of_lt_of_le (Nat.lt_of_lt_of_le
      (bytesLE_lt _ (bytes_lt_of_reverse (bytes_lt_of_take h))) ?_) hle
    rw [List.length_reverse]

theorem writeFuncVal_lt (r : Reg) (s off v : Nat) (hro : r.romask < 2 ^ (8 * r.size)) :
    r.writeFuncVal s off v < 2 ^ (8 * r.size) := by
  unfold Reg.writeFuncVal
  have hm : natCompl r.size (subint_mask r.order r.size s off).1 |||
      r.romask < 2 ^ (8 * r.size) :=
    lor_lt_two_pow (natCompl_lt _ (subint_mask_fst_lt ..)) hro
  exact lor_lt_two_pow (Nat.and_lt_two_pow _ (natCompl_lt _ hm)) (Nat.and_lt_two_pow _ hm)

theorem get_def (r : Reg) : r.get = endianRead r.order r.size r.raw := rfl

theorem testBit_false_of_lt {x n i : Nat} (h : x < 2 ^ n) (hi : n ≤ i) :
    x.testBit i = false :=
  Nat.testBit_lt_two_pow
    (Nat.lt_of_lt_of_le h (Nat.pow_le_pow_of_le_right (by omega) hi))

theorem shl_mod_and {w sh v b : Nat} (hb : b < 2 ^ (8 * w)) :
    (v % 2 ^ (8 * w)) <<< sh % 2 ^ (8 * w) &&& b = v <<< sh &&& b := by
  apply Nat.eq_of_testBit_eq
  intro i
  simp only [Nat.testBit_and, Nat.testBit_mod_two_pow, Nat.testBit_shiftLeft]
  by_cases hi : i < 8 * w
  · have h2 : i - sh < 8 * w := by omega
    simp [hi, h2]
  · rw [testBit_false_of_lt hb (by omega)]
    simp

/-- A 32-bit little-endian register with both access flags enabled and no
mask or callbacks, holding the bytes of 0xddccbbaa (as set up by the
`regs.rs` test bank). -/
def sampleLE : Reg :=
  { order := .le, size := 4, raw := [0xaa, 0xbb, 0xcc, 0xdd, 0, 0, 0, 0],
    romask := 0, readAccess := true, writeAccess := true, wcb := false, rcb := none }

/-- The register of the `reg32le_mask` test: read-only mask 0xff00ff00. -/
def sampleMask : Reg := { sampleLE with romask := 0xff00ff00 }

/-- A register with an attached write observer. -/
def sampleCb : Reg := { sampleLE with wcb := true }

/-- A read-only (write-disabled) register, as in `reg32le_rowo`. -/
def sampleWriteDisabled : Reg := { sampleLE with writeAccess := false }

/-- A write-only (read-disabled) register, as in `reg32le_rowo`. -/
def sampleReadDisabled : Reg := { sampleLE with readAccess := false }

/-- C4: for a register cell with write access disabled, every write of every
width at every address with every value is a no-op: the state (hence the
raw value observed by `get`) is unchanged and the write observer is never
invoked (the invocation list is empty). -/
theorem write_disabled_noop (r : Reg) (s addr v : Nat)
    (h : r.writeAccess = false) :
    r.write s addr v = (r, []) := by
  simp [Reg.write, h]

theorem write_disabled_noop_witness :
    sampleWriteDisabled.writeAccess = false ∧
      sampleWriteDisabled.write 4 0 0xaabbccdd = (sampleWriteDisabled, []) :=
  ⟨rfl, write_disabled_noop sampleWriteDisabled 4 0 0xaabbccdd rfl⟩

/-- C5: for a register cell with read access disabled, every read of every
width at every address yields the all-ones value of the requested width,
regardless of the stored value, and the state is untouched; the result does
not depend on the read transform, so the transform is never invoked and no
raw storage byte is exposed. -/
theorem read_disabled_all_ones (r : Reg) (s addr : Nat)
    (h : r.readAccess = false) :
    r.read s addr = (allOnes s, r) := by
  simp [Reg.read, h]

theorem read_disabled_all_ones_witness :
    sampleReadDisabled.readAccess = false ∧
      sampleReadDisabled.read 4 0 = (allOnes 4, sampleReadDisabled) :=
  ⟨rfl, read_disabled_all_ones sampleReadDisabled 4 0 rfl⟩

/-- C10: a read never modifies the register state: for every cell (any
flags, mask or callbacks, the read transform being pure), the state after
`read` is the state before it, and in particular `get` returns the same raw
value; the transform result is exposed to the reader but never stored. -/
theorem read_frame (r : Reg) (s addr : Nat) :
    (r.read s addr).2.get = r.get ∧ (r.read s addr).2 = r := by
  have h2 : (r.read s addr).2 = r := by
    unfold Reg.read
    by_cases h : r.readAccess = false
    · simp [h]
    · simp only [if_neg h]
      cases r.rcb <;> simp
  exact ⟨by rw [h2], h2⟩

/-- C6: every write to a write-enabled cell with a write observer invokes
the observer exactly once, with the full-width pair of the stored value
before the write and the stored value after it (never the narrow value). -/
theorem write_observer_full_width (r : Reg) (s addr v : Nat)
    (hw : r.writeAccess = true) (hcb : r.wcb = true)
    (hro : r.romask < 2 ^ (8 * r.size)) :
    (r.write s addr v).2 = [(r.get, (r.write s addr v).1.get)] := by
  have h1 : ¬ r.writeAccess = false := by rw [hw]; simp
  have h2 : ¬ (r.romask = 0 ∧ r.wcb = false) := by
    rintro ⟨_, hb⟩
    rw [hcb] at hb
    cases hb
  simp only [Reg.write, if_neg h1, if_neg h2]
  rw [if_pos hcb, get_set, Nat.mod_eq_of_lt (writeFuncVal_lt _ _ _ _ hro)]

theorem write_observer_full_width_witness :
    sampleCb.writeAccess = true ∧ sampleCb.wcb = true ∧
      (sampleCb.write 2 0 0x6789).2 =
        [(sampleCb.get, (sampleCb.write 2 0 0x6789).1.get)] :=
  ⟨rfl, rfl, write_observer_full_width sampleCb 2 0 0x6789 rfl rfl (by decide)⟩

/-- C2: on the general write path (read-only mask nonzero or observer
present), a write-enabled cell stores
`(widened AND NOT effective) OR (old AND effective)` where
`widened = v <<< shift` (the zero-extended value placed in the sub-window),
`effective = NOT mask OR read-only mask`, and `(mask, shift)` is the
sub-window for the masked address. -/
theorem write_general_path_formula (r : Reg) (s addr v : Nat)
    (hw : r.writeAccess = true) (hgen : r.romask ≠ 0 ∨ r.wcb = true)
    (hs : s ≤ r.size) (hv : v < 2 ^ (8 * s))
    (hro : r.romask < 2 ^ (8 * r.size)) :
    (r.write s addr v).1.get =
      (v <<< (subint_mask r.order r.size s (addr &&& (r.size - 1))).2 &&&
          natCompl r.size
            (natCompl r.size (subint_mask r.order r.size s (addr &&& (r.size - 1))).1 |||
              r.romask)) |||
        (r.get &&&
          (natCompl r.size (subint_mask r.order r.size s (addr &&& (r.size - 1))).1 |||
            r.romask)) := by
  have h1 : ¬ r.writeAccess = false := by rw [hw]; simp
  have h2 : ¬ (r.romask = 0 ∧ r.wcb = false) := by
    rintro ⟨ha, hb⟩
    rcases hgen with h | h
    · exact h ha
    · rw [h] at hb; cases hb
  simp only [Reg.write, if_neg h1, if_neg h2]
  rw [get_set, Nat.mod_eq_of_lt (writeFuncVal_lt _ _ _ _ hro)]
  simp only [Reg.writeFuncVal]
  rw [shl_mod_and (natCompl_lt _ (lor_lt_two_pow (natCompl_lt _ (subint_mask_fst_lt ..)) hro))]

theorem write_general_path_formula_witness :
    sampleMask.romask ≠ 0 ∧
      (sampleMask.write 2 0 0x6789).1.get =
        (0x6789 <<< (subint_mask sampleMask.order sampleMask.size 2 (0 &&& (sampleMask.size - 1))).2 &&&
            natCompl sampleMask.size
              (natCompl sampleMask.size
                  (subint_mask sampleMask.order sampleMask.size 2 (0 &&& (sampleMask.size - 1))).1 |||
                sampleMask.romask)) |||
          (sampleMask.get &&&
            (natCompl sampleMask.size
                (subint_mask sampleMask.order sampleMask.size 2 (0 &&& (sampleMask.size - 1))).1 |||
              sampleMask.romask)) :=
  ⟨by decide, write_general_path_formula sampleMask 2 0 0x6789 rfl (Or.inl (by decide))
    (by decide) (by decide) (by decide)⟩

/-- C1: for every write-enabled register cell, every write of every width,
address and value leaves the bits selected by the read-only mask unchanged
in the stored full-width value, including when an observer is present and
when the sub-window overlaps read-only bits. -/
theorem readonly_mask_invariant (r : Reg) (s addr v : Nat)
    (hw : r.writeAccess = true) (hs : s ≤ r.size) (hv : v < 2 ^ (8 * s))
    (hro : r.romask < 2 ^ (8 * r.size)) :
    (r.write s addr v).1.get &&& r.romask = r.get &&& r.romask := by
  by_cases hfast : r.romask = 0 ∧ r.wcb = false
  · rw [hfast.1, Nat.and_zero, Nat.and_zero]
  · have h1 : ¬ r.writeAccess = false := by rw [hw]; simp
    simp only [Reg.write, if_neg h1, if_neg hfast]
    rw [get_set, Nat.mod_eq_of_lt (writeFuncVal_lt _ _ _ _ hro)]
    simp only [Reg.writeFuncVal]
    apply Nat.eq_of_testBit_eq
    intro i
    simp only [Nat.testBit_and, Nat.testBit_or, testBit_natCompl]
    by_cases hi : i < 8 * r.size
    · by_cases hri : r.romask.testBit i
      · simp [hri, hi]
      · simp [hri]
    · rw [testBit_false_of_lt hro (by omega)]
      simp

theorem readonly_mask_invariant_witness :
    sampleMask.writeAccess = true ∧
      (sampleMask.write 4 0 0x12345678).1.get &&& sampleMask.romask =
        sampleMask.get &&& sampleMask.romask :=
  ⟨rfl, readonly_mask_invariant sampleMask 4 0 0x12345678 rfl (by decide) (by decide)
    (by decide)⟩

theorem mem_sizes_bounds {s : Nat} (h : s ∈ ([1, 2, 4, 8] : List Nat)) :
    0 < s ∧ s ≤ 8 := by
  simp only [List.mem_cons, List.not_mem_nil, or_false] at h
  rcases h with rfl | rfl | rfl | rfl <;> omega

theorem size_dvd_of_mem {s w : Nat} (hs : s ∈ ([1, 2, 4, 8] : List Nat))
    (hw : w ∈ ([1, 2, 4, 8] : List Nat)) (hle : s ≤ w) : s ∣ w := by
  simp only [List.mem_cons, List.not_mem_nil, or_false] at hs hw
  rcases hs with rfl | rfl | rfl | rfl <;> rcases hw with rfl | rfl | rfl | rfl <;> omega

theorem off_window_le {s w off : Nat} (hdvd : s ∣ w) (hoff : off < w)
    (halign : s ∣ off) : off + s ≤ w := by
  have h1 : s ∣ w - off := Nat.dvd_sub' hdvd halign
  have h2 : 0 < w - off := by omega
  have h3 : s ≤ w - off := Nat.le_of_dvd h2 h1
  omega

theorem memIoRead_eq_general (r : Reg) (s off : Nat)
    (hlen : r.raw.length = 8) (hb : ∀ b ∈ r.raw, b < 256)
    (hsize : r.size ≤ 8) (hoff : off + s ≤ r.size) (hs0 : 0 < s) :
    memIoRead r.order s r.raw off =
      (r.get >>> (subint_mask r.order r.size s off).2) % 2 ^ (8 * s) := by
  apply Nat.eq_of_testBit_eq
  intro i
  rw [Nat.testBit_mod_two_pow, Nat.testBit_shiftRight, get_def]
  cases horder : r.order
  · simp only [subint_mask]
    rw [testBit_memIoRead_le _ _ _ hb, testBit_endianRead_le _ _ hb]
    by_cases hi : i < 8 * s
    · have e1 : (off * 8 + i) / 8 = off + i / 8 := by omega
      have e2 : (off * 8 + i) % 8 = i % 8 := by omega
      have e3 : off * 8 + i < 8 * r.size := by omega
      rw [e1, e2]
      simp [hi, e3]
    · simp [hi]
  · simp only [subint_mask]
    rw [testBit_memIoRead_be _ _ _ hb (by omega),
      testBit_endianRead_be _ _ (by omega) hb]
    by_cases hi : i < 8 * s
    · have e1 : ((r.size - s - off) * 8 + i) / 8 = (r.size - s - off) + i / 8 := by
        omega
      have e2 : ((r.size - s - off) * 8 + i) % 8 = i % 8 := by omega
      have e3 : (r.size - s - off) * 8 + i < 8 * r.size := by omega
      have e4 : r.size - 1 - ((r.size - s - off) + i / 8) = off + (s - 1 - i / 8) := by
        omega
      rw [e1, e2, e4]
      simp [hi, e3]
    · simp [hi]

/-- The full value a read exposes before sub-window truncation: the result
of the read transform if one is set, else the raw stored value (step 2 of
§4.2 `read`). -/
def Reg.fullValue (r : Reg) : Nat :=
  match r.rcb with
  | some f => f r.get
  | none => r.get

/-- C3: for every read-enabled register cell, `read` of width `s` at an
(in-contract, §4.1-aligned) address returns the sub-window of the full
value: `truncate_s (full >>> shift)` where `full` is the transformed value
if a read transform is set and the raw value otherwise.  The transform
returns a machine integer of the register width, which is the hypothesis
`hf`. -/
theorem read_value_formula (r : Reg) (s addr : Nat)
    (hr : r.readAccess = true) (hwf : r.Wf)
    (hsmem : s ∈ ([1, 2, 4, 8] : List Nat)) (hs : s ≤ r.size)
    (halign : s ∣ (addr &&& (r.size - 1)))
    (hf : ∀ f, r.rcb = some f → f r.get < 2 ^ (8 * r.size)) :
    (r.read s addr).1 =
      (r.fullValue >>> (subint_mask r.order r.size s (addr &&& (r.size - 1))).2) %
        2 ^ (8 * s) := by
  obtain ⟨hlen, hb, hwmem, hro⟩ := hwf
  have hs0 : 0 < s := (mem_sizes_bounds hsmem).1
  have hw0 : 0 < r.size := (mem_sizes_bounds hwmem).1
  have hsize : r.size ≤ 8 := (mem_sizes_bounds hwmem).2
  have hoffw : addr &&& (r.size - 1) < r.size := by
    have h1 : addr &&& (r.size - 1) ≤ r.size - 1 := Nat.and_le_right
    omega
  have hwin : (addr &&& (r.size - 1)) + s ≤ r.size :=
    off_window_le (size_dvd_of_mem hsmem hwmem hs) hoffw halign
  unfold Reg.read Reg.fullValue
  rw [if_neg (by rw [hr]; simp)]
  cases hrcb : r.rcb with
  | some f =>
    dsimp only
    rw [Nat.mod_eq_of_lt (hf f hrcb)]
  | none => exact memIoRead_eq_general r s _ hlen hb hsize hwin hs0

theorem read_value_formula_witness :
    sampleMask.readAccess = true ∧ (2 : Nat) ∣ (2 &&& (sampleMask.size - 1)) ∧
      (sampleMask.read 2 2).1 =
        (sampleMask.fullValue >>>
            (subint_mask sampleMask.order sampleMask.size 2 (2 &&& (sampleMask.size - 1))).2) %
          2 ^ (8 * 2) :=
  ⟨rfl, by decide,
    read_value_formula sampleMask 2 2 rfl
      ⟨rfl, by decide, by decide, by decide⟩ (by decide) (by decide) (by decide)
      (fun f hf => by simp [sampleMask, sampleLE] at hf)⟩

theorem getD_endianBytes_le (s v j : Nat) :
    (endianBytes .le s v).getD j 0 = if j < s then v / 2 ^ (8 * j) % 256 else 0 := by
  simp only [endianBytes]
  exact getD_toBytesLE s v j

theorem getD_endianBytes_be (s v j : Nat) :
    (endianBytes .be s v).getD j 0 =
      if j < s then v / 2 ^ (8 * (s - 1 - j)) % 256 else 0 := by
  simp only [endianBytes]
  rw [getD_reverse, toBytesLE_length]
  by_cases hj : j < s
  · rw [if_pos hj, if_pos hj, getD_toBytesLE, if_pos (by omega)]
  · rw [if_neg hj, if_neg hj]

theorem bytes_lt_endianBytes (o : ByteOrder) (s v : Nat) :
    ∀ b ∈ endianBytes o s v, b < 256 := by
  cases o
  · exact toBytesLE_lt s v
  · exact bytes_lt_of_reverse (toBytesLE_lt s v)

theorem bytes_lt_memIoWrite (o : ByteOrder) (s : Nat) (raw : List Nat) (off v : Nat)
    (h : ∀ b ∈ raw, b < 256) : ∀ b ∈ memIoWrite o s raw off v, b < 256 := by
  intro b hb
  simp only [memIoWrite, List.mem_append] at hb
  rcases hb with (hb | hb) | hb
  · exact h b (List.mem_of_mem_take hb)
  · exact bytes_lt_endianBytes o s v b hb
  · exact h b (List.mem_of_mem_drop hb)

theorem length_memIoWrite (o : ByteOrder) (s : Nat) (raw : List Nat) (off v : Nat)
    (hoff : off + s ≤ raw.length) :
    (memIoWrite o s raw off v).length = raw.length := by
  simp only [memIoWrite, List.length_append, List.length_take, List.length_drop,
    length_endianBytes]
  omega

theorem memIoWrite_eq_general (r : Reg) (s off v : Nat)
    (hlen : r.raw.length = 8) (hb : ∀ b ∈ r.raw, b < 256)
    (hsize : r.size ≤ 8) (hoff : off + s ≤ r.size) (hs0 : 0 < s)
    (hro0 : r.romask = 0) :
    endianRead r.order r.size (memIoWrite r.order s r.raw off v) =
      r.writeFuncVal s off v := by
  have hoffr : off + s ≤ r.raw.length := by omega
  have hbL : ∀ b ∈ memIoWrite r.order s r.raw off v, b < 256 :=
    bytes_lt_memIoWrite _ _ _ _ _ hb
  have hlenL : (memIoWrite r.order s r.raw off v).length = r.raw.length :=
    length_memIoWrite _ _ _ _ _ hoffr
  simp only [Reg.writeFuncVal, hro0, Nat.or_zero, natCompl_natCompl]
  apply Nat.eq_of_testBit_eq
  intro i
  rw [get_def]
  cases horder : r.order
  · rw [horder] at hbL hlenL
    simp only [subint_mask]
    rw [testBit_endianRead_le _ _ hbL,
      getD_memIoWrite _ _ _ _ _ _ (by omega), getD_endianBytes_le]
    simp only [Nat.testBit_or, Nat.testBit_and, testBit_natCompl,
      Nat.testBit_mod_two_pow, Nat.testBit_shiftLeft, Nat.testBit_two_pow_sub_one,
      testBit_endianRead_le _ _ hb]
    by_cases h1 : i < 8 * r.size
    · by_cases h2 : i / 8 < off
      · rw [if_pos h2]
        simp [h1, show ¬ off * 8 ≤ i by omega]
      · by_cases h3 : i / 8 < off + s
        · rw [if_neg h2, if_pos h3, if_pos (by omega), testBit_byte]
          have e : 8 * (i / 8 - off) + i % 8 = i - off * 8 := by omega
          rw [e]
          simp [h1, show off * 8 ≤ i by omega, show i - off * 8 < 8 * s by omega,
            show i - off * 8 < 8 * r.size by omega, show i % 8 < 8 by omega]
        · rw [if_neg h2, if_neg h3]
          simp [h1, show ¬ i - off * 8 < 8 * s by omega]
    · simp [h1]
  · rw [horder] at hbL hlenL
    simp only [subint_mask]
    rw [testBit_endianRead_be r.size (memIoWrite ByteOrder.be s r.raw off v)
        (by omega) hbL,
      getD_memIoWrite _ _ _ _ _ _ (by omega), getD_endianBytes_be]
    simp only [Nat.testBit_or, Nat.testBit_and, testBit_natCompl,
      Nat.testBit_mod_two_pow, Nat.testBit_shiftLeft, Nat.testBit_two_pow_sub_one,
      testBit_endianRead_be r.size r.raw (by omega) hb]
    by_cases h1 : i < 8 * r.size
    · by_cases h2 : i < (r.size - s - off) * 8
      · rw [if_neg (show ¬ r.size - 1 - i / 8 < off by omega),
          if_neg (show ¬ r.size - 1 - i / 8 < off + s by omega)]
        simp [h1, show ¬ (r.size - s - off) * 8 ≤ i by omega]
      · by_cases h3 : i < (r.size - s - off) * 8 + 8 * s
        · rw [if_neg (show ¬ r.size - 1 - i / 8 < off by omega),
            if_pos (show r.size - 1 - i / 8 < off + s by omega),
            if_pos (by omega), testBit_byte]
          have e : 8 * (s - 1 - (r.size - 1 - i / 8 - off)) + i % 8 =
              i - (r.size - s - off) * 8 := by omega
          rw [e]
          simp [h1, show (r.size - s - off) * 8 ≤ i by omega,
            show i - (r.size - s - off) * 8 < 8 * s by omega,
            show i - (r.size - s - off) * 8 < 8 * r.size by omega,
            show i % 8 < 8 by omega]
        · rw [if_pos (show r.size - 1 - i / 8 < off by omega)]
          simp [h1, show ¬ i - (r.size - s - off) * 8 < 8 * s by omega]
    · simp [h1]

/-- C7: the fast paths are observationally equivalent to the general paths.
For a read-enabled cell with no read transform, the direct-memory read
handler (the `HwIoR::Mem` path taken by `read`) yields the value the
general read logic computes from `get`; for a write-enabled cell with zero
read-only mask and no write observer, the direct-memory write handler (the
`HwIoW::Mem` path taken by `write`) leaves the stored value the general
mask-and-merge path (`writeFuncVal`) would store. -/
theorem fast_path_equivalence (r : Reg) (s addr v : Nat)
    (hwf : r.Wf) (hsmem : s ∈ ([1, 2, 4, 8] : List Nat)) (hs : s ≤ r.size)
    (halign : s ∣ (addr &&& (r.size - 1))) (hv : v < 2 ^ (8 * s)) :
    (r.readAccess = true → r.rcb = none →
      (r.read s addr).1 =
        (r.get >>> (subint_mask r.order r.size s (addr &&& (r.size - 1))).2) %
          2 ^ (8 * s)) ∧
    (r.writeAccess = true → r.romask = 0 → r.wcb = false →
      (r.write s addr v).1.get = r.writeFuncVal s (addr &&& (r.size - 1)) v) := by
  obtain ⟨hlen, hb, hwmem, hro⟩ := hwf
  have hs0 : 0 < s := (mem_sizes_bounds hsmem).1
  have hw0 : 0 < r.size := (mem_sizes_bounds hwmem).1
  have hsize : r.size ≤ 8 := (mem_sizes_bounds hwmem).2
  have hoffw : addr &&& (r.size - 1) < r.size := by
    have h1 : addr &&& (r.size - 1) ≤ r.size - 1 := Nat.and_le_right
    omega
  have hwin : (addr &&& (r.size - 1)) + s ≤ r.size :=
    off_window_le (size_dvd_of_mem hsmem hwmem hs) hoffw halign
  constructor
  · intro hr hrcb
    unfold Reg.read
    rw [if_neg (by rw [hr]; simp), hrcb]
    exact memIoRead_eq_general r s _ hlen hb hsize hwin hs0
  · intro hw hro0 hwcb
    have h1 : ¬ r.writeAccess = false := by rw [hw]; simp
    simp only [Reg.write, if_neg h1, if_pos (And.intro hro0 hwcb)]
    exact memIoWrite_eq_general r s _ v hlen hb hsize hwin hs0 hro0

theorem fast_path_equivalence_witness :
    sampleLE.rcb = none ∧ sampleLE.romask = 0 ∧ sampleLE.wcb = false ∧
      (sampleLE.read 2 2).1 =
        (sampleLE.get >>>
            (subint_mask sampleLE.order sampleLE.size 2 (2 &&& (sampleLE.size - 1))).2) %
          2 ^ (8 * 2) ∧
      (sampleLE.write 2 2 0x6789).1.get =
        sampleLE.writeFuncVal 2 (2 &&& (sampleLE.size - 1)) 0x6789 :=
  ⟨rfl, rfl, rfl,
    (fast_path_equivalence sampleLE 2 2 0x6789 ⟨rfl, by decide, by decide, by decide⟩
        (by decide) (by decide) (by decide) (by decide)).1 rfl rfl,
    (fast_path_equivalence sampleLE 2 2 0x6789 ⟨rfl, by decide, by decide, by decide⟩
        (by decide) (by decide) (by decide) (by decide)).2 rfl rfl rfl⟩

/-- C8: round-trip identity: on a register cell with zero read-only mask,
both access flags enabled and no callbacks, a full-width write of any
representable value `v` at address 0 followed by a full-width read at
address 0 returns exactly `v`. -/
theorem round_trip_identity (r : Reg) (v : Nat)
    (hro0 : r.romask = 0) (hr : r.readAccess = true) (hw : r.writeAccess = true)
    (hwcb : r.wcb = false) (hrcb : r.rcb = none)
    (hv : v < 2 ^ (8 * r.size)) :
    ((r.write r.size 0 v).1.read r.size 0).1 = v := by
  have h1 : ¬ r.writeAccess = false := by rw [hw]; simp
  simp only [Reg.write, if_neg h1, if_pos (And.intro hro0 hwcb)]
  unfold Reg.read
  dsimp only
  rw [if_neg (by rw [hr]; simp), hrcb]
  dsimp only
  rw [Nat.zero_and]
  simp only [memIoWrite, List.take_zero, List.nil_append, Nat.zero_add]
  cases horder : r.order
  · simp only [memIoRead, endianBytes, List.drop_zero]
    rw [List.take_left' (toBytesLE_length _ _), bytesLE_toBytesLE, Nat.mod_eq_of_lt hv]
  · simp only [memIoRead, endianBytes, List.drop_zero]
    rw [List.take_left' (by rw [List.length_reverse, toBytesLE_length]),
      List.reverse_reverse, bytesLE_toBytesLE, Nat.mod_eq_of_lt hv]

theorem round_trip_identity_witness :
    sampleLE.romask = 0 ∧ (0x12345678 : Nat) < 2 ^ (8 * sampleLE.size) ∧
      ((sampleLE.write sampleLE.size 0 0x12345678).1.read sampleLE.size 0).1 =
        0x12345678 :=
  ⟨rfl, by decide,
    round_trip_identity sampleLE 0x12345678 rfl rfl rfl rfl rfl (by decide)⟩

/-- A fresh 32-bit little-endian register cell with default policy, as
built by `le::Reg32::new()`. -/
def reg32le : Reg :=
  { order := .le, size := 4, raw := List.replicate 8 0, romask := 0,
    readAccess := true, writeAccess := true, wcb := false, rcb := none }

/-- C9: the concrete little-endian scenario of `reg32le_bare`: starting
from stored 0xAAAAAAAA, a 32-bit write of 0x12345678 makes the byte reads
at offsets 0 and 1 return 0x78 and 0x56 and the 16-bit read at offset 2
return 0x1234; a following 16-bit write of 0x6789 at offset 0 makes the
full 32-bit read return 0x12346789. -/
theorem reg32le_scenario :
    ((((reg32le.set 0xaaaaaaaa).write 4 0 0x12345678).1.read 1 0).1 = 0x78 ∧
      (((reg32le.set 0xaaaaaaaa).write 4 0 0x12345678).1.read 1 1).1 = 0x56 ∧
      (((reg32le.set 0xaaaaaaaa).write 4 0 0x12345678).1.read 2 2).1 = 0x1234 ∧
      (((((reg32le.set 0xaaaaaaaa).write 4 0 0x12345678).1.write 2 0 0x6789).1.read 4 0).1 =
        0x12346789)) := by
  decide

end Regs
